import Mathlib

/-!
Verification development for the bracket_parser repository (Rust).

The source consists of two functions in src/lib.rs:
  - search_end_bracket: scans a string for the matching close bracket of a
    chosen kind, maintaining a signed nesting counter;
  - parse: scans a string left to right, flushes plain-text runs, and on an
    opening bracket invokes search_end_bracket, recursively parses the
    interior, and wraps it in a node tagged by bracket kind.

The Rust code advances by character positions (chars().nth, chars().enumerate)
and uses those positions as slice offsets.  For inputs whose characters are
all single UTF-8 bytes the two coordinate systems coincide, so the primary
model below works on List Char with character positions used directly as
slice offsets.  A second, byte-aware model (parseB below) tracks the UTF-8
byte widths explicitly and returns a distinguished panicked result when a
slice offset falls outside the set of character boundaries, which is what the
Rust program does on multi-byte inputs.
-/

namespace BP

/-- Mirror of the Rust enum ParseError (single variant HasNoClosing(usize)). -/
inductive ParseError where
  | HasNoClosing (offset : Nat)
deriving DecidableEq

/-- Mirror of the Rust enum AST.  Text content is kept as List Char; boxing
of the recursive children is irrelevant in Lean. -/
inductive AST where
  | Text (content : List Char)
  | Parenthesis (inner : AST)
  | Curly (inner : AST)
  | Square (inner : AST)
  | Tokens (tokens : List AST)

/-- Mirror of the private Rust enum Bracket. -/
inductive Bracket where
  | Paren
  | Curly
  | Square
deriving DecidableEq

/-- The characters matched by the Rust pattern for opening brackets. -/
def isOpenChar (c : Char) : Bool :=
  c == '(' || c == '\x7b' || c == '['

/-- The characters matched by the Rust pattern for closing brackets. -/
def isCloseChar (c : Char) : Bool :=
  c == ')' || c == '\x7d' || c == ']'

/-- The opening symbol of a bracket kind (first component of targets). -/
def openChar : Bracket → Char
  | .Paren => '('
  | .Curly => '\x7b'
  | .Square => '['

/-- The closing symbol of a bracket kind (second component of targets). -/
def closeChar : Bracket → Char
  | .Paren => ')'
  | .Curly => '\x7d'
  | .Square => ']'

/-- The pair (open, close) chosen by the match at the top of
search_end_bracket. -/
def targets : Bracket → Char × Char
  | .Paren => ('(', ')')
  | .Curly => ('\x7b', '\x7d')
  | .Square => ('[', ']')

/-- The bracket kind chosen by the if/else chain in parse for an opening
bracket character. -/
def kindOf (c : Char) : Bracket :=
  if c = '(' then .Paren else if c = '\x7b' then .Curly else .Square

/-- The node constructor chosen by the match on the bracket kind in parse. -/
def wrapB : Bracket → AST → AST
  | .Paren, a => .Parenthesis a
  | .Curly, a => .Curly a
  | .Square, a => .Square a

/-- The loop of search_end_bracket: for each character, on an opening-bracket
character equal to the open target increment the counter; on a closing-bracket
character equal to the close target decrement it and return the current index
when it reaches exactly zero; ignore everything else. -/
def sebGo (t : Char × Char) : List Char → Nat → Int → Option Nat
  | [], _, _ => none
  | c :: rest, idx, cnt =>
    if isOpenChar c then
      sebGo t rest (idx + 1) (if t.fst = c then cnt + 1 else cnt)
    else if isCloseChar c then
      if t.snd = c then
        if cnt - 1 = 0 then some idx
        else sebGo t rest (idx + 1) (cnt - 1)
      else sebGo t rest (idx + 1) cnt
    else sebGo t rest (idx + 1) cnt

/-- Mirror of the Rust fn search_end_bracket. -/
def search_end_bracket (origin : List Char) (bracket : Bracket) : Option Nat :=
  sebGo (targets bracket) origin 0 0

/-- The slice origin[a..b] of the Rust code, with positions counted in
characters (exact for single-byte inputs). -/
def slice (l : List Char) (a b : Nat) : List Char :=
  (l.drop a).take (b - a)

/-- The trailing flush after the scan loop of parse: push origin[lss..] as a
Text node when lss < origin.len() - 1 or origin.len() == 1 (this is the exact
condition at line 101 of lib.rs). -/
def flushEnd (origin : List Char) (lss : Nat) (tokens : List AST) : List AST :=
  if lss < origin.length - 1 ∨ origin.length = 1 then
    tokens ++ [AST.Text (origin.drop lss)]
  else tokens

/-- The final return of parse: a single accumulated token is returned
directly, otherwise the list is wrapped in Tokens. -/
def collapse : List AST → AST
  | [t] => t
  | ts => AST.Tokens ts

/-- The scan loop of parse, starting at character position index with the
pending text run beginning at lss and the accumulated output tokens.  The
recursive call of the Rust parse on the bracket interior is inlined here
(its empty-input early return becomes the branch producing Text []), which
lets the whole loop be one well-founded recursion. -/
def parseGo (origin : List Char) (index lss : Nat) (tokens : List AST) :
    Except ParseError AST :=
  if h : index < origin.length then
    if isOpenChar (origin.get ⟨index, h⟩) then
      match search_end_bracket (origin.drop index)
          (kindOf (origin.get ⟨index, h⟩)) with
      | none => .error (.HasNoClosing index)
      | some e =>
        if (slice origin (index + 1) (index + e)).length = 0 then
          parseGo origin (index + e + 1) (index + e + 1)
            ((if lss ≠ index then tokens ++ [AST.Text (slice origin lss index)]
              else tokens) ++
              [wrapB (kindOf (origin.get ⟨index, h⟩)) (AST.Text [])])
        else
          match parseGo (slice origin (index + 1) (index + e)) 0 0 [] with
          | .error err => .error err
          | .ok inner =>
            parseGo origin (index + e + 1) (index + e + 1)
              ((if lss ≠ index then
                  tokens ++ [AST.Text (slice origin lss index)]
                else tokens) ++
                [wrapB (kindOf (origin.get ⟨index, h⟩)) inner])
    else
      parseGo origin (index + 1) lss tokens
  else
    .ok (collapse (flushEnd origin lss tokens))
termination_by (origin.length, origin.length - index)
decreasing_by
  · apply Prod.Lex.right
    omega
  · apply Prod.Lex.left
    simp only [slice, List.length_take, List.length_drop]
    omega
  · apply Prod.Lex.right
    omega
  · apply Prod.Lex.right
    omega

/-- Mirror of the Rust fn parse: empty input returns Text(""), otherwise run
the scan loop from position 0. -/
def parse (origin : List Char) : Except ParseError AST :=
  if origin.length = 0 then .ok (.Text [])
  else parseGo origin 0 0 []

/-- Fuel-indexed copy of parseGo, structurally recursive on the fuel so that
concrete runs reduce definitionally; none marks fuel exhaustion. -/
def parseGoF : Nat → List Char → Nat → Nat → List AST →
    Option (Except ParseError AST)
  | 0, _, _, _, _ => none
  | Nat.succ fuel, origin, index, lss, tokens =>
    if h : index < origin.length then
      if isOpenChar (origin.get ⟨index, h⟩) then
        match search_end_bracket (origin.drop index)
            (kindOf (origin.get ⟨index, h⟩)) with
        | none => some (.error (.HasNoClosing index))
        | some e =>
          if (slice origin (index + 1) (index + e)).length = 0 then
            parseGoF fuel origin (index + e + 1) (index + e + 1)
              ((if lss ≠ index then
                  tokens ++ [AST.Text (slice origin lss index)]
                else tokens) ++
                [wrapB (kindOf (origin.get ⟨index, h⟩)) (AST.Text [])])
          else
            match parseGoF fuel (slice origin (index + 1) (index + e)) 0 0 [] with
            | none => none
            | some (.error err) => some (.error err)
            | some (.ok inner) =>
              parseGoF fuel origin (index + e + 1) (index + e + 1)
                ((if lss ≠ index then
                    tokens ++ [AST.Text (slice origin lss index)]
                  else tokens) ++
                  [wrapB (kindOf (origin.get ⟨index, h⟩)) inner])
      else
        parseGoF fuel origin (index + 1) lss tokens
    else
      some (.ok (collapse (flushEnd origin lss tokens)))

/-- Fuel-indexed copy of parse. -/
def parseF (fuel : Nat) (origin : List Char) : Option (Except ParseError AST) :=
  if origin.length = 0 then some (.ok (.Text []))
  else parseGoF fuel origin 0 0 []

/-- Whether the character at position k (if any) is an opening bracket. -/
def isOpenAt (l : List Char) (k : Nat) : Bool :=
  match l[k]? with
  | some c => isOpenChar c
  | none => false

/-- Contribution of one character to the nesting counter of kind k:
+1 on its opening symbol, -1 on its closing symbol, 0 otherwise. -/
def bDelta (k : Bracket) (c : Char) : Int :=
  if c = openChar k then 1 else if c = closeChar k then -1 else 0

/-- Value of the nesting counter of kind k after scanning l from count 0. -/
def bCount (k : Bracket) (l : List Char) : Int :=
  (l.map (bDelta k)).sum

/-- Position j holds the closing symbol of kind k and the counter, started
at cnt, has just returned to zero there. -/
def hitAt (k : Bracket) (l : List Char) (cnt : Int) (j : Nat) : Prop :=
  l[j]? = some (closeChar k) ∧ cnt + bCount k (l.take (j + 1)) = 0

instance (k l cnt j) : Decidable (hitAt k l cnt j) := by
  unfold hitAt; infer_instance

/-- True for every node except a Tokens sequence. -/
def notTokens : AST → Bool
  | .Tokens _ => false
  | _ => true

mutual
/-- Every Tokens node inside the tree has at least two elements. -/
def goodAST : AST → Bool
  | .Text _ => true
  | .Parenthesis a => goodAST a
  | .Curly a => goodAST a
  | .Square a => goodAST a
  | .Tokens ts => decide (2 ≤ ts.length) && goodList ts

/-- goodAST for every element of the list. -/
def goodList : List AST → Bool
  | [] => true
  | a :: as => goodAST a && goodList as
end

mutual
/-- No Tokens node inside the tree directly contains another Tokens node. -/
def flatAST : AST → Bool
  | .Text _ => true
  | .Parenthesis a => flatAST a
  | .Curly a => flatAST a
  | .Square a => flatAST a
  | .Tokens ts => flatList ts

/-- Every element is itself not a Tokens node and recursively flat. -/
def flatList : List AST → Bool
  | [] => true
  | a :: as => (notTokens a && flatAST a) && flatList as
end

/-- Total UTF-8 byte length of a character list, as Rust str::len. -/
def utf8Len (l : List Char) : Nat :=
  (l.map Char.utf8Size).sum

/-- Drop the first n BYTES of a character list; none when n does not land on
a character boundary or exceeds the byte length (a Rust slice panic). -/
def byteDrop : List Char → Nat → Option (List Char)
  | l, 0 => some l
  | [], _ + 1 => none
  | c :: rest, n + 1 =>
    if c.utf8Size ≤ n + 1 then byteDrop rest (n + 1 - c.utf8Size) else none

/-- Take the first n BYTES of a character list; none when n does not land on
a character boundary or exceeds the byte length (a Rust slice panic). -/
def byteTake : List Char → Nat → Option (List Char)
  | _, 0 => some []
  | [], _ + 1 => none
  | c :: rest, n + 1 =>
    if c.utf8Size ≤ n + 1 then (byteTake rest (n + 1 - c.utf8Size)).map (c :: ·)
    else none

/-- The Rust byte slice s[a..b]; none models the panic on a reversed range
or an offset that is not a character boundary. -/
def byteSlice (l : List Char) (a b : Nat) : Option (List Char) :=
  if b < a then none
  else (byteDrop l a).bind (fun t => byteTake t (b - a))

/-- Result of running the byte-aware model: a value, a parse error, or a
Rust panic caused by slicing at a non-boundary byte offset. -/
inductive RRes where
  | ok (a : AST)
  | err (e : ParseError)
  | panicked

/-- Byte-aware model of the scan loop of parse: the character cursor index
and the run start lss are advanced in character counts exactly as in the
Rust code, but every slice interprets them as BYTE offsets, as Rust does.
The panicked result records a slice at a non-boundary offset.  The recursive
call of parse on the interior is inlined as in parseGo. -/
def parseBGo (origin : List Char) (index lss : Nat) (tokens : List AST) :
    RRes :=
  if h : index < origin.length then
    if isOpenChar (origin.get ⟨index, h⟩) then
      match (if lss ≠ index then
              (byteSlice origin lss index).map
                (fun t => tokens ++ [AST.Text t])
             else some tokens) with
      | none => .panicked
      | some tokens2 =>
        match byteDrop origin index with
        | none => .panicked
        | some tail =>
          match search_end_bracket tail (kindOf (origin.get ⟨index, h⟩)) with
          | none => .err (.HasNoClosing index)
          | some e =>
            match hbs : byteSlice origin (index + 1) (index + e) with
            | none => .panicked
            | some innerS =>
              match (if utf8Len innerS = 0 then RRes.ok (AST.Text [])
                     else parseBGo innerS 0 0 []) with
              | .panicked => .panicked
              | .err err => .err err
              | .ok innerA =>
                parseBGo origin (index + e + 1) (index + e + 1)
                  (tokens2 ++ [wrapB (kindOf (origin.get ⟨index, h⟩)) innerA])
    else
      parseBGo origin (index + 1) lss tokens
  else
    if lss < utf8Len origin - 1 ∨ utf8Len origin = 1 then
      match byteDrop origin lss with
      | none => .panicked
      | some rest => .ok (collapse (tokens ++ [AST.Text rest]))
    else .ok (collapse tokens)
termination_by (origin.length, origin.length - index)
decreasing_by
  · apply Prod.Lex.left
    · have h1 : ∀ (m : List Char) (n : Nat) (r : List Char),
          byteDrop m n = some r → r.length ≤ m.length := by
        intro m
        induction m with
        | nil => intro n r h
                 cases n with
                 | zero => simp [byteDrop] at h; simp [h]
                 | succ k => simp [byteDrop] at h
        | cons c rest ih =>
            intro n r h
            cases n with
            | zero => simp [byteDrop] at h; simp [h]
            | succ k =>
                simp only [byteDrop] at h
                split at h
                · exact Nat.le_trans (ih _ _ h) (by simp)
                · exact absurd h (by simp)
      have h2 : ∀ (m : List Char) (n : Nat) (r : List Char),
          byteTake m n = some r → r.length ≤ m.length := by
        intro m
        induction m with
        | nil => intro n r h
                 cases n with
                 | zero => simp [byteTake] at h; simp [h]
                 | succ k => simp [byteTake] at h
        | cons c rest ih =>
            intro n r h
            cases n with
            | zero => simp [byteTake] at h; simp [h]
            | succ k =>
                simp only [byteTake] at h
                split at h
                · cases hw : byteTake rest (k + 1 - c.utf8Size) with
                  | none => rw [hw] at h; simp at h
                  | some w =>
                      rw [hw] at h
                      simp at h
                      rw [← h]
                      simpa using Nat.succ_le_succ (ih _ _ hw)
                · exact absurd h (by simp)
      unfold byteSlice at hbs
      split at hbs
      · exact absurd hbs (by simp)
      · cases hd : byteDrop origin (index + 1) with
        | none => rw [hd] at hbs; simp at hbs
        | some t =>
            rw [hd] at hbs
            rw [Option.some_bind] at hbs
            have ht := h2 _ _ _ hbs
            cases origin with
            | nil => simp at h
            | cons c rest =>
                have : t.length ≤ rest.length := by
                  have := h1 (c :: rest) (index + 1) t ?_
                  · simp only [byteDrop] at hd
                    split at hd
                    · have := h1 _ _ _ hd
                      omega
                    · exact absurd hd (by simp)
                  · exact hd
                simp only [List.length_cons]
                omega
  · apply Prod.Lex.right
    omega
  · apply Prod.Lex.right
    omega

/-- Byte-aware model of parse (the length test at the top of parse is a byte
length in Rust). -/
def parseB (origin : List Char) : RRes :=
  if utf8Len origin = 0 then .ok (.Text [])
  else parseBGo origin 0 0 []

/-- Fuel-indexed copy of parseBGo for concrete evaluation. -/
def parseBGoF : Nat → List Char → Nat → Nat → List AST → Option RRes
  | 0, _, _, _, _ => none
  | Nat.succ fuel, origin, index, lss, tokens =>
    if h : index < origin.length then
      if isOpenChar (origin.get ⟨index, h⟩) then
        match (if lss ≠ index then
                (byteSlice origin lss index).map
                  (fun t => tokens ++ [AST.Text t])
               else some tokens) with
        | none => some .panicked
        | some tokens2 =>
          match byteDrop origin index with
          | none => some .panicked
          | some tail =>
            match search_end_bracket tail (kindOf (origin.get ⟨index, h⟩)) with
            | none => some (.err (.HasNoClosing index))
            | some e =>
              match byteSlice origin (index + 1) (index + e) with
              | none => some .panicked
              | some innerS =>
                match (if utf8Len innerS = 0 then some (RRes.ok (AST.Text []))
                       else parseBGoF fuel innerS 0 0 []) with
                | none => none
                | some .panicked => some .panicked
                | some (.err err) => some (.err err)
                | some (.ok innerA) =>
                  parseBGoF fuel origin (index + e + 1) (index + e + 1)
                    (tokens2 ++ [wrapB (kindOf (origin.get ⟨index, h⟩)) innerA])
      else
        parseBGoF fuel origin (index + 1) lss tokens
    else
      if lss < utf8Len origin - 1 ∨ utf8Len origin = 1 then
        match byteDrop origin lss with
        | none => some .panicked
        | some rest => some (.ok (collapse (tokens ++ [AST.Text rest])))
      else some (.ok (collapse tokens))

/-- Fuel-indexed copy of parseB. -/
def parseBF (fuel : Nat) (origin : List Char) : Option RRes :=
  if utf8Len origin = 0 then some (.ok (.Text []))
  else parseBGoF fuel origin 0 0 []

/-- A fuel run that terminates computes the value of parseGo. -/
theorem parseGoF_sound : ∀ (fuel : Nat) (origin : List Char)
    (index lss : Nat) (tokens : List AST) (r : Except ParseError AST),
    parseGoF fuel origin index lss tokens = some r →
    parseGo origin index lss tokens = r := by
  intro fuel
  induction fuel with
  | zero => intro origin index lss tokens r h; simp [parseGoF] at h
  | succ n ih =>
    intro origin index lss tokens r h
    rw [parseGo.eq_def]
    rw [parseGoF] at h
    split at h
    · next hlt =>
      rw [dif_pos hlt]
      split at h
      · next hopen =>
        rw [if_pos hopen]
        split at h
        · next hse =>
          exact Option.some.inj h
        · next e hse =>
          split at h
          · next hz =>
            rw [if_pos hz]
            exact ih _ _ _ _ _ h
          · next hz =>
            rw [if_neg hz]
            split at h
            · exact absurd h (by simp)
            · next err hinner =>
              rw [ih _ _ _ _ _ hinner]
              exact Option.some.inj h
            · next inner hinner =>
              rw [ih _ _ _ _ _ hinner]
              exact ih _ _ _ _ _ h
      · next hopen =>
        rw [if_neg hopen]
        exact ih _ _ _ _ _ h
    · next hlt =>
      rw [dif_neg hlt]
      exact Option.some.inj h

/-- A fuel run that terminates computes the value of parse. -/
theorem parseF_sound (fuel : Nat) (origin : List Char)
    (r : Except ParseError AST) (h : parseF fuel origin = some r) :
    parse origin = r := by
  unfold parseF at h
  unfold parse
  split at h
  · next hz => rw [if_pos hz]; exact Option.some.inj h
  · next hz => rw [if_neg hz]; exact parseGoF_sound _ _ _ _ _ _ h

/-- A fuel run that terminates computes the value of parseBGo. -/
theorem parseBGoF_sound : ∀ (fuel : Nat) (origin : List Char)
    (index lss : Nat) (tokens : List AST) (r : RRes),
    parseBGoF fuel origin index lss tokens = some r →
    parseBGo origin index lss tokens = r := by
  intro fuel
  induction fuel with
  | zero => intro origin index lss tokens r h; simp [parseBGoF] at h
  | succ n ih =>
    intro origin index lss tokens r h
    rw [parseBGoF] at h
    rw [parseBGo.eq_def]
    split
    · next hlt =>
      rw [dif_pos hlt] at h
      split
      · next hopen =>
        rw [if_pos hopen] at h
        split
        · next heq => simp only [heq] at h; exact Option.some.inj h
        · next tokens2 heq =>
          simp only [heq] at h
          split
          · next heq2 => simp only [heq2] at h; exact Option.some.inj h
          · next tail heq2 =>
            simp only [heq2] at h
            split
            · next heq3 => simp only [heq3] at h; exact Option.some.inj h
            · next e heq3 =>
              simp only [heq3] at h
              split
              · next heq4 => simp only [heq4] at h; exact Option.some.inj h
              · next innerS heq4 =>
                simp only [heq4] at h
                by_cases hz : utf8Len innerS = 0
                · rw [if_pos hz] at h ⊢
                  exact ih _ _ _ _ _ h
                · rw [if_neg hz] at h ⊢
                  cases hg : parseBGoF n innerS 0 0 [] with
                  | none => rw [hg] at h; simp at h
                  | some v =>
                    rw [hg] at h
                    rw [ih _ _ _ _ _ hg]
                    cases v with
                    | panicked => exact Option.some.inj h
                    | err err2 => exact Option.some.inj h
                    | ok innerA => exact ih _ _ _ _ _ h
      · next hopen =>
        rw [if_neg hopen] at h
        exact ih _ _ _ _ _ h
    · next hlt =>
      rw [dif_neg hlt] at h
      split
      · next hcond =>
        rw [if_pos hcond] at h
        split
        · next heq => simp only [heq] at h; exact Option.some.inj h
        · next rest heq => simp only [heq] at h; exact Option.some.inj h
      · next hcond =>
        rw [if_neg hcond] at h
        exact Option.some.inj h

/-- A fuel run that terminates computes the value of parseB. -/
theorem parseBF_sound (fuel : Nat) (origin : List Char) (r : RRes)
    (h : parseBF fuel origin = some r) : parseB origin = r := by
  unfold parseBF at h
  unfold parseB
  split at h
  · next hz => rw [if_pos hz]; exact Option.some.inj h
  · next hz => rw [if_neg hz]; exact parseBGoF_sound _ _ _ _ _ _ h

/-- After the scan loop, parseGo flushes and collapses. -/
theorem parseGo_end (origin : List Char) (index lss : Nat)
    (tokens : List AST) (h : ¬ index < origin.length) :
    parseGo origin index lss tokens =
      .ok (collapse (flushEnd origin lss tokens)) := by
  rw [parseGo.eq_def, dif_neg h]

/-- A non-opening character only advances the scan cursor. -/
theorem parseGo_nonopen (origin : List Char) (index lss : Nat)
    (tokens : List AST) (h : index < origin.length)
    (hno : isOpenChar (origin.get ⟨index, h⟩) = false) :
    parseGo origin index lss tokens = parseGo origin (index + 1) lss tokens := by
  rw [parseGo.eq_def]
  simp only [dif_pos h, hno, Bool.false_eq_true, if_false]

/-- An opening bracket whose matcher scan fails aborts the parse with
HasNoClosing at the position of that opening bracket. -/
theorem parseGo_open_none (origin : List Char) (index lss : Nat)
    (tokens : List AST) (h : index < origin.length)
    (hopen : isOpenChar (origin.get ⟨index, h⟩) = true)
    (hse : search_end_bracket (origin.drop index)
        (kindOf (origin.get ⟨index, h⟩)) = none) :
    parseGo origin index lss tokens = .error (.HasNoClosing index) := by
  rw [parseGo.eq_def]
  simp only [dif_pos h, hopen, if_true, hse]

/-- An opening bracket whose matcher scan succeeds recursively parses the
interior, propagates a failure unchanged, and otherwise wraps and continues
past the close. -/
theorem parseGo_open_some (origin : List Char) (index lss : Nat)
    (tokens : List AST) (h : index < origin.length)
    (hopen : isOpenChar (origin.get ⟨index, h⟩) = true) (e : Nat)
    (hse : search_end_bracket (origin.drop index)
        (kindOf (origin.get ⟨index, h⟩)) = some e) :
    parseGo origin index lss tokens =
      match parse (slice origin (index + 1) (index + e)) with
      | .error err => .error err
      | .ok inner =>
        parseGo origin (index + e + 1) (index + e + 1)
          ((if lss ≠ index then tokens ++ [AST.Text (slice origin lss index)]
            else tokens) ++
            [wrapB (kindOf (origin.get ⟨index, h⟩)) inner]) := by
  rw [parseGo.eq_def]
  simp only [dif_pos h, hopen, if_true, hse]
  by_cases hz : (slice origin (index + 1) (index + e)).length = 0
  · rw [if_pos hz]
    have hp : parse (slice origin (index + 1) (index + e)) = .ok (.Text []) := by
      unfold parse; rw [if_pos hz]
    rw [hp]
  · rw [if_neg hz]
    have hp : parse (slice origin (index + 1) (index + e)) =
        parseGo (slice origin (index + 1) (index + e)) 0 0 [] := by
      unfold parse; rw [if_neg hz]
    rw [hp]

/-- Scanning across a block of non-opening characters does not change the
result: the cursor just moves to its end. -/
theorem parseGo_scan (origin : List Char) (lss : Nat) (tokens : List AST) :
    ∀ (n i : Nat), i + n ≤ origin.length →
    (∀ k, i ≤ k → k < i + n → isOpenAt origin k = false) →
    parseGo origin i lss tokens = parseGo origin (i + n) lss tokens := by
  intro n
  induction n with
  | zero => intro i _ _; rfl
  | succ m ih =>
    intro i hle hno
    have hi : i < origin.length := by omega
    have hopen : isOpenChar (origin.get ⟨i, hi⟩) = false := by
      have hx := hno i (le_refl i) (by omega)
      unfold isOpenAt at hx
      rw [List.getElem?_eq_getElem hi] at hx
      simpa [List.get_eq_getElem] using hx
    rw [parseGo_nonopen origin i lss tokens hi hopen]
    have hy := ih (i + 1) (by omega) (fun k hk1 hk2 => hno k (by omega) (by omega))
    rw [hy]
    congr 1
    omega

theorem openChar_isOpen (k : Bracket) : isOpenChar (openChar k) = true := by
  cases k <;> decide

theorem closeChar_isClose (k : Bracket) : isCloseChar (closeChar k) = true := by
  cases k <;> decide

theorem closeChar_not_open (k : Bracket) : isOpenChar (closeChar k) = false := by
  cases k <;> decide

theorem open_ne_close (k : Bracket) : openChar k ≠ closeChar k := by
  cases k <;> decide

theorem targets_fst (k : Bracket) : (targets k).fst = openChar k := by
  cases k <;> rfl

theorem targets_snd (k : Bracket) : (targets k).snd = closeChar k := by
  cases k <;> rfl

theorem bDelta_open (k : Bracket) : bDelta k (openChar k) = 1 := by
  unfold bDelta; rw [if_pos rfl]

theorem bDelta_close (k : Bracket) : bDelta k (closeChar k) = -1 := by
  unfold bDelta
  rw [if_neg (Ne.symm (open_ne_close k)), if_pos rfl]

theorem bDelta_other (k : Bracket) (c : Char) (h1 : c ≠ openChar k)
    (h2 : c ≠ closeChar k) : bDelta k c = 0 := by
  unfold bDelta; rw [if_neg h1, if_neg h2]

theorem sebGo_cons_open (t : Char × Char) (c : Char) (rest : List Char)
    (idx : Nat) (cnt : Int) (h : isOpenChar c = true) :
    sebGo t (c :: rest) idx cnt =
      sebGo t rest (idx + 1) (if t.fst = c then cnt + 1 else cnt) := by
  simp only [sebGo, h, if_true]

theorem sebGo_cons_close (t : Char × Char) (c : Char) (rest : List Char)
    (idx : Nat) (cnt : Int) (h1 : isOpenChar c = false)
    (h2 : isCloseChar c = true) (h3 : t.snd = c) :
    sebGo t (c :: rest) idx cnt =
      if cnt - 1 = 0 then some idx else sebGo t rest (idx + 1) (cnt - 1) := by
  simp only [sebGo, h1, h2, h3, Bool.false_eq_true, if_false, if_true, if_pos rfl]

theorem sebGo_cons_skip (t : Char × Char) (c : Char) (rest : List Char)
    (idx : Nat) (cnt : Int)
    (h1 : isOpenChar c = true → t.fst ≠ c)
    (h2 : isCloseChar c = true → t.snd ≠ c) :
    sebGo t (c :: rest) idx cnt = sebGo t rest (idx + 1) cnt := by
  simp only [sebGo]
  by_cases ho : isOpenChar c = true
  · rw [if_pos ho, if_neg (h1 ho)]
  · rw [if_neg ho]
    by_cases hc : isCloseChar c = true
    · rw [if_pos hc, if_neg (h2 hc)]
    · rw [if_neg hc]

/-- A character that is neither the open nor the close symbol of kind k is
completely inert for the matcher scan of kind k. -/
theorem sebGo_cons_inert (k : Bracket) (c : Char) (rest : List Char)
    (idx : Nat) (cnt : Int) (h1 : c ≠ openChar k) (h2 : c ≠ closeChar k) :
    sebGo (targets k) (c :: rest) idx cnt =
      sebGo (targets k) rest (idx + 1) cnt := by
  apply sebGo_cons_skip
  · intro _; rw [targets_fst]; exact fun hx => h1 hx.symm
  · intro _; rw [targets_snd]; exact fun hx => h2 hx.symm

theorem hitAt_zero (k : Bracket) (c : Char) (rest : List Char) (cnt : Int) :
    hitAt k (c :: rest) cnt 0 ↔ (c = closeChar k ∧ cnt + bDelta k c = 0) := by
  unfold hitAt
  rw [List.getElem?_cons_zero]
  have hb : bCount k ((c :: rest).take 1) = bDelta k c := by
    simp [bCount]
  rw [hb]
  simp [eq_comm]

theorem hitAt_cons (k : Bracket) (c : Char) (rest : List Char) (cnt : Int)
    (j : Nat) :
    hitAt k (c :: rest) cnt (j + 1) ↔ hitAt k rest (cnt + bDelta k c) j := by
  unfold hitAt
  rw [List.getElem?_cons_succ]
  have hb : bCount k ((c :: rest).take (j + 1 + 1)) =
      bDelta k c + bCount k (rest.take (j + 1)) := by
    simp [bCount, List.take_succ_cons]
  rw [hb]
  constructor
  · rintro ⟨hget, hsum⟩; exact ⟨hget, by omega⟩
  · rintro ⟨hget, hsum⟩; exact ⟨hget, by omega⟩

/-- Shifting the head off the list in the first-hit characterization. -/
theorem firstHit_shift (k : Bracket) (c : Char) (rest : List Char)
    (cnt : Int) (idx r : Nat) (h0 : ¬ hitAt k (c :: rest) cnt 0) :
    (∃ j, r = idx + j ∧ hitAt k (c :: rest) cnt j ∧
        ∀ m, m < j → ¬ hitAt k (c :: rest) cnt m) ↔
    (∃ j, r = (idx + 1) + j ∧ hitAt k rest (cnt + bDelta k c) j ∧
        ∀ m, m < j → ¬ hitAt k rest (cnt + bDelta k c) m) := by
  constructor
  · rintro ⟨j, hr, hhit, hmin⟩
    cases j with
    | zero => exact absurd hhit h0
    | succ j2 =>
      refine ⟨j2, by omega, (hitAt_cons k c rest cnt j2).mp hhit, ?_⟩
      intro m hm hcontr
      exact hmin (m + 1) (by omega) ((hitAt_cons k c rest cnt m).mpr hcontr)
  · rintro ⟨j, hr, hhit, hmin⟩
    refine ⟨j + 1, by omega, (hitAt_cons k c rest cnt j).mpr hhit, ?_⟩
    intro m hm
    cases m with
    | zero => exact h0
    | succ m2 =>
      intro hcontr
      exact hmin m2 (by omega) ((hitAt_cons k c rest cnt m2).mp hcontr)

/-- The matcher loop returns exactly the first index at which the closing
symbol of its kind brings the running counter to zero. -/
theorem sebGo_some_iff (k : Bracket) : ∀ (l : List Char) (idx : Nat)
    (cnt : Int) (r : Nat),
    sebGo (targets k) l idx cnt = some r ↔
      ∃ j, r = idx + j ∧ hitAt k l cnt j ∧
        ∀ m, m < j → ¬ hitAt k l cnt m := by
  intro l
  induction l with
  | nil =>
    intro idx cnt r
    simp [sebGo, hitAt]
  | cons c rest ih =>
    intro idx cnt r
    by_cases hc : c = closeChar k
    · subst hc
      rw [sebGo_cons_close (targets k) (closeChar k) rest idx cnt
        (closeChar_not_open k) (closeChar_isClose k) (targets_snd k)]
      by_cases hz : cnt - 1 = 0
      · rw [if_pos hz]
        have hhit0 : hitAt k (closeChar k :: rest) cnt 0 := by
          rw [hitAt_zero]
          refine ⟨rfl, ?_⟩
          rw [bDelta_close]
          omega
        constructor
        · intro hsome
          have hr : r = idx := by
            have := Option.some.inj hsome
            omega
          exact ⟨0, by omega, hhit0, by omega⟩
        · rintro ⟨j, hr, hhit, hmin⟩
          cases j with
          | zero => simp [hr]
          | succ j2 => exact absurd hhit0 (hmin 0 (by omega))
      · rw [if_neg hz]
        have h0 : ¬ hitAt k (closeChar k :: rest) cnt 0 := by
          rw [hitAt_zero, bDelta_close]
          rintro ⟨_, hsum⟩
          omega
        rw [ih (idx + 1) (cnt - 1) r]
        rw [firstHit_shift k (closeChar k) rest cnt idx r h0]
        have heq : cnt + bDelta k (closeChar k) = cnt - 1 := by
          rw [bDelta_close]; omega
        rw [heq]
    · have h0 : ¬ hitAt k (c :: rest) cnt 0 := by
        rw [hitAt_zero]
        rintro ⟨hcc, _⟩
        exact hc hcc
      by_cases ho : c = openChar k
      · subst ho
        rw [sebGo_cons_open (targets k) (openChar k) rest idx cnt
          (openChar_isOpen k)]
        rw [if_pos (targets_fst k)]
        rw [ih (idx + 1) (cnt + 1) r]
        rw [firstHit_shift k (openChar k) rest cnt idx r h0]
        have heq : cnt + bDelta k (openChar k) = cnt + 1 := by
          rw [bDelta_open]
        rw [heq]
      · rw [sebGo_cons_inert k c rest idx cnt ho hc]
        rw [ih (idx + 1) cnt r]
        rw [firstHit_shift k c rest cnt idx r h0]
        have heq : cnt + bDelta k c = cnt := by
          rw [bDelta_other k c ho hc]; omega
        rw [heq]

/-- search_end_bracket finds exactly the first index where the closing
symbol of its kind returns the counter (started at zero) to zero. -/
theorem search_some_iff (l : List Char) (k : Bracket) (r : Nat) :
    search_end_bracket l k = some r ↔
      hitAt k l 0 r ∧ ∀ m, m < r → ¬ hitAt k l 0 m := by
  unfold search_end_bracket
  rw [sebGo_some_iff k l 0 0 r]
  constructor
  · rintro ⟨j, hr, hhit, hmin⟩
    have : j = r := by omega
    subst this
    exact ⟨hhit, hmin⟩
  · rintro ⟨hhit, hmin⟩
    exact ⟨r, by omega, hhit, hmin⟩

theorem hitAt_lt_length (k : Bracket) (l : List Char) (cnt : Int) (j : Nat)
    (h : hitAt k l cnt j) : j < l.length := by
  obtain ⟨hget, _⟩ := h
  exact (List.getElem?_eq_some.mp hget).1

theorem search_some_lt (l : List Char) (k : Bracket) (e : Nat)
    (h : search_end_bracket l k = some e) : e < l.length :=
  hitAt_lt_length k l 0 e ((search_some_iff l k e).mp h).1

theorem search_none_of_no_hit (l : List Char) (k : Bracket)
    (h : ∀ j, j < l.length → ¬ hitAt k l 0 j) :
    search_end_bracket l k = none := by
  cases hs : search_end_bracket l k with
  | none => rfl
  | some r =>
    have hr := (search_some_iff l k r).mp hs
    exact absurd hr.1 (h r (hitAt_lt_length k l 0 r hr.1))

/-- When the scanned text begins with the opening symbol of the kind, the
matcher cannot return offset zero. -/
theorem search_head_open_pos (l : List Char) (k : Bracket) (e : Nat)
    (hhead : l.head? = some (openChar k))
    (h : search_end_bracket l k = some e) : 1 ≤ e := by
  rcases Nat.eq_zero_or_pos e with he | he
  · subst he
    have hr := ((search_some_iff l k 0).mp h).1
    obtain ⟨hget, _⟩ := hr
    cases l with
    | nil => simp at hget
    | cons c rest =>
      rw [List.getElem?_cons_zero] at hget
      rw [List.head?_cons] at hhead
      have h1 := Option.some.inj hget
      have h2 := Option.some.inj hhead
      exact absurd (h2.symm.trans h1) (open_ne_close k)
  · exact he

theorem goodAST_Text (l : List Char) : goodAST (.Text l) = true := by
  simp [goodAST]

theorem flatAST_Text (l : List Char) : flatAST (.Text l) = true := by
  simp [flatAST]

theorem notTokens_Text (l : List Char) : notTokens (.Text l) = true := rfl

theorem goodAST_wrapB (k : Bracket) (a : AST) :
    goodAST (wrapB k a) = goodAST a := by
  cases k <;> simp [wrapB, goodAST]

theorem flatAST_wrapB (k : Bracket) (a : AST) :
    flatAST (wrapB k a) = flatAST a := by
  cases k <;> simp [wrapB, flatAST]

theorem notTokens_wrapB (k : Bracket) (a : AST) :
    notTokens (wrapB k a) = true := by
  cases k <;> rfl

theorem goodList_iff (ts : List AST) :
    goodList ts = true ↔ ∀ a ∈ ts, goodAST a = true := by
  induction ts with
  | nil => simp [goodList]
  | cons a as ih => simp [goodList, ih]

theorem flatList_iff (ts : List AST) :
    flatList ts = true ↔ ∀ a ∈ ts, notTokens a = true ∧ flatAST a = true := by
  induction ts with
  | nil => simp [flatList]
  | cons a as ih =>
    simp only [flatList, Bool.and_eq_true, ih, List.mem_cons]
    constructor
    · rintro ⟨⟨h1, h2⟩, h3⟩ b hb
      rcases hb with hb | hb
      · subst hb; exact ⟨h1, h2⟩
      · exact h3 b hb
    · intro hall
      exact ⟨⟨(hall a (Or.inl rfl)).1, (hall a (Or.inl rfl)).2⟩,
        fun b hb => hall b (Or.inr hb)⟩

/-- Collapsing a nonempty list of well-formed non-Tokens-free nodes yields a
well-formed tree: a singleton is returned as is, and a longer list becomes a
Tokens node with at least two elements. -/
theorem collapse_good (ts : List AST) (hne : ts ≠ [])
    (hts : ∀ a ∈ ts, goodAST a = true ∧ flatAST a = true ∧
      notTokens a = true) :
    goodAST (collapse ts) = true ∧ flatAST (collapse ts) = true := by
  match ts with
  | [] => exact absurd rfl hne
  | [t] =>
    have := hts t (by simp)
    simpa [collapse] using ⟨this.1, this.2.1⟩
  | a :: b :: rest =>
    have hcol : collapse (a :: b :: rest) = AST.Tokens (a :: b :: rest) := by
      simp [collapse]
    rw [hcol]
    constructor
    · simp only [goodAST, Bool.and_eq_true, decide_eq_true_eq]
      refine ⟨by simp only [List.length_cons]; omega, ?_⟩
      rw [goodList_iff]
      exact fun x hx => (hts x hx).1
    · simp only [flatAST]
      rw [flatList_iff]
      exact fun x hx => ⟨(hts x hx).2.2, (hts x hx).2.1⟩

/-- Every element of the flushed token list is an original token or a Text
node. -/
theorem flushEnd_mem (origin : List Char) (lss : Nat) (tokens : List AST) :
    ∀ a ∈ flushEnd origin lss tokens, a ∈ tokens ∨ ∃ l, a = AST.Text l := by
  intro a ha
  unfold flushEnd at ha
  split at ha
  · rw [List.mem_append] at ha
    rcases ha with ha | ha
    · exact Or.inl ha
    · simp at ha
      exact Or.inr ⟨_, ha⟩
  · exact Or.inl ha

/-- When the scanned text is nonempty and an empty token list can only occur
with the run start still at zero, the flushed token list is nonempty. -/
theorem flushEnd_ne_nil (origin : List Char) (lss : Nat) (tokens : List AST)
    (hne : origin ≠ []) (hlz : tokens = [] → lss = 0) :
    flushEnd origin lss tokens ≠ [] := by
  unfold flushEnd
  split
  · simp
  · next hcond =>
    intro hnil
    have hlen : 0 < origin.length := List.length_pos.mpr hne
    have hl0 := hlz hnil
    subst hl0
    omega

/-- Main well-formedness invariant of the scan loop: starting from a state
whose accumulated tokens are well-formed non-Tokens nodes (and where an empty
accumulator implies the run starts at zero), a successful run produces a tree
in which every Tokens node has at least two elements and no Tokens node
directly contains another Tokens node. -/
theorem parseGo_invariant : ∀ (origin : List Char) (index lss : Nat)
    (tokens : List AST),
    origin ≠ [] →
    (tokens = [] → lss = 0) →
    (∀ a ∈ tokens, goodAST a = true ∧ flatAST a = true ∧ notTokens a = true) →
    ∀ r, parseGo origin index lss tokens = .ok r →
    goodAST r = true ∧ flatAST r = true := by
  intro origin index lss tokens
  induction origin, index, lss, tokens using parseGo.induct with
  | case1 origin index lss tokens h hopen hse =>
    intro hne hlz hts r hr
    rw [parseGo_open_none origin index lss tokens h hopen hse] at hr
    exact absurd hr (by simp)
  | case2 origin index lss tokens h hopen e hse hz ih =>
    intro hne hlz hts r hr
    rw [parseGo_open_some origin index lss tokens h hopen e hse] at hr
    have hp : parse (slice origin (index + 1) (index + e)) = .ok (.Text []) := by
      unfold parse; rw [if_pos hz]
    rw [hp] at hr
    refine ih hne (by simp) ?_ r hr
    intro a ha
    rw [List.mem_append] at ha
    rcases ha with ha | ha
    · split at ha
      · rw [List.mem_append] at ha
        rcases ha with ha | ha
        · exact hts a ha
        · simp at ha
          subst ha
          exact ⟨goodAST_Text _, flatAST_Text _, notTokens_Text _⟩
      · exact hts a ha
    · simp at ha
      subst ha
      rw [goodAST_wrapB, flatAST_wrapB]
      exact ⟨goodAST_Text _, flatAST_Text _, notTokens_wrapB _ _⟩
  | case3 origin index lss tokens h hopen e hse hz err hinner ihinner =>
    intro hne hlz hts r hr
    rw [parseGo_open_some origin index lss tokens h hopen e hse] at hr
    have hp : parse (slice origin (index + 1) (index + e)) = .error err := by
      unfold parse; rw [if_neg hz]; exact hinner
    rw [hp] at hr
    exact absurd hr (by simp)
  | case4 origin index lss tokens h hopen e hse hz inner hinner ihinner ih =>
    intro hne hlz hts r hr
    rw [parseGo_open_some origin index lss tokens h hopen e hse] at hr
    have hp : parse (slice origin (index + 1) (index + e)) = .ok inner := by
      unfold parse; rw [if_neg hz]; exact hinner
    rw [hp] at hr
    have hslice_ne : slice origin (index + 1) (index + e) ≠ [] := by
      intro hx
      rw [hx] at hz
      simp at hz
    have hinner_good := ihinner hslice_ne (by simp) (by simp) inner hinner
    refine ih hne (by simp) ?_ r hr
    intro a ha
    rw [List.mem_append] at ha
    rcases ha with ha | ha
    · split at ha
      · rw [List.mem_append] at ha
        rcases ha with ha | ha
        · exact hts a ha
        · simp at ha
          subst ha
          exact ⟨goodAST_Text _, flatAST_Text _, notTokens_Text _⟩
      · exact hts a ha
    · simp at ha
      subst ha
      rw [goodAST_wrapB, flatAST_wrapB]
      exact ⟨hinner_good.1, hinner_good.2, notTokens_wrapB _ _⟩
  | case5 origin index lss tokens h hno ih =>
    intro hne hlz hts r hr
    have hno2 : isOpenChar (origin.get ⟨index, h⟩) = false := by
      revert hno
      cases isOpenChar (origin.get ⟨index, h⟩) <;> simp
    rw [parseGo_nonopen origin index lss tokens h hno2] at hr
    exact ih hne hlz hts r hr
  | case6 origin index lss tokens hlt =>
    intro hne hlz hts r hr
    rw [parseGo_end origin index lss tokens hlt] at hr
    have hr2 := Except.ok.inj hr
    rw [← hr2]
    apply collapse_good
    · exact flushEnd_ne_nil origin lss tokens hne hlz
    · intro a ha
      rcases flushEnd_mem origin lss tokens a ha with ha2 | ⟨l, ha2⟩
      · exact hts a ha2
      · subst ha2
        exact ⟨goodAST_Text _, flatAST_Text _, notTokens_Text _⟩

/-- Well-formedness of every successful parse result. -/
theorem parse_invariant (s : List Char) (r : AST) (h : parse s = .ok r) :
    goodAST r = true ∧ flatAST r = true := by
  unfold parse at h
  split at h
  · have := Except.ok.inj h
    rw [← this]
    exact ⟨goodAST_Text _, flatAST_Text _⟩
  · next hz =>
    refine parseGo_invariant s 0 0 [] ?_ (by simp) (by simp) r h
    intro hx
    rw [hx] at hz
    simp at hz

theorem open_kindOf (c : Char) (h : isOpenChar c = true) :
    openChar (kindOf c) = c := by
  have hc : c = '(' ∨ c = '\x7b' ∨ c = '[' := by
    simp only [isOpenChar, Bool.or_eq_true, beq_iff_eq] at h
    tauto
  rcases hc with hc | hc | hc <;> subst hc <;> rfl

theorem utf8Len_ascii (l : List Char) (ha : ∀ c ∈ l, c.utf8Size = 1) :
    utf8Len l = l.length := by
  induction l with
  | nil => rfl
  | cons c rest ih =>
    have hc : c.utf8Size = 1 := ha c (by simp)
    simp only [utf8Len, List.map_cons, List.sum_cons, hc, List.length_cons]
    have := ih (fun x hx => ha x (by simp [hx]))
    simp only [utf8Len] at this
    omega

theorem byteDrop_ascii (l : List Char) (ha : ∀ c ∈ l, c.utf8Size = 1) :
    ∀ n, byteDrop l n = if n ≤ l.length then some (l.drop n) else none := by
  induction l with
  | nil =>
    intro n
    cases n with
    | zero => simp [byteDrop]
    | succ k => simp [byteDrop]
  | cons c rest ih =>
    intro n
    cases n with
    | zero => simp [byteDrop]
    | succ k =>
      have hc : c.utf8Size = 1 := ha c (by simp)
      simp only [byteDrop, hc]
      rw [if_pos (by omega)]
      have hk1 : k + 1 - 1 = k := by omega
      rw [hk1]
      rw [ih (fun x hx => ha x (by simp [hx])) k]
      by_cases hk : k ≤ rest.length
      · rw [if_pos hk, if_pos (by simp only [List.length_cons]; omega)]
        rfl
      · rw [if_neg hk, if_neg (by simp only [List.length_cons]; omega)]

theorem byteTake_ascii (l : List Char) (ha : ∀ c ∈ l, c.utf8Size = 1) :
    ∀ n, byteTake l n = if n ≤ l.length then some (l.take n) else none := by
  induction l with
  | nil =>
    intro n
    cases n with
    | zero => simp [byteTake]
    | succ k => simp [byteTake]
  | cons c rest ih =>
    intro n
    cases n with
    | zero => simp [byteTake]
    | succ k =>
      have hc : c.utf8Size = 1 := ha c (by simp)
      simp only [byteTake, hc]
      rw [if_pos (by omega)]
      have hk1 : k + 1 - 1 = k := by omega
      rw [hk1]
      rw [ih (fun x hx => ha x (by simp [hx])) k]
      by_cases hk : k ≤ rest.length
      · rw [if_pos hk, if_pos (by simp only [List.length_cons]; omega)]
        rfl
      · rw [if_neg hk, if_neg (by simp only [List.length_cons]; omega)]
        rfl

theorem byteSlice_ascii (l : List Char) (a b : Nat)
    (ha : ∀ c ∈ l, c.utf8Size = 1) :
    byteSlice l a b =
      if a ≤ b ∧ b ≤ l.length then some ((l.drop a).take (b - a))
      else none := by
  unfold byteSlice
  by_cases hab : b < a
  · rw [if_pos hab, if_neg (by omega)]
  · rw [if_neg hab]
    rw [byteDrop_ascii l ha a]
    by_cases hal : a ≤ l.length
    · rw [if_pos hal]
      rw [Option.some_bind]
      rw [byteTake_ascii (l.drop a)
        (fun x hx => ha x (List.drop_subset a l hx)) (b - a)]
      by_cases hbl : b ≤ l.length
      · rw [if_pos (by simp only [List.length_drop]; omega),
          if_pos ⟨by omega, hbl⟩]
      · rw [if_neg (by simp only [List.length_drop]; omega),
          if_neg (by omega)]
    · rw [if_neg hal]
      rw [Option.none_bind]
      rw [if_neg (by omega)]

/-- On input whose characters are all single UTF-8 bytes, the byte-aware
scan loop never panics: every slice offset it forms is a character
boundary. -/
theorem parseBGo_no_panic : ∀ (origin : List Char) (index lss : Nat)
    (tokens : List AST),
    (∀ c ∈ origin, c.utf8Size = 1) → lss ≤ index → lss ≤ origin.length →
    parseBGo origin index lss tokens ≠ .panicked := by
  intro origin index lss tokens
  induction origin, index, lss, tokens using parseBGo.induct with
  | case1 origin index lss tokens h hopen hpf =>
    intro ha hli hll _
    rw [byteSlice_ascii origin lss index ha] at hpf
    split at hpf
    · rw [if_pos (by omega : lss ≤ index ∧ index ≤ origin.length)] at hpf
      simp at hpf
    · simp at hpf
  | case2 origin index lss tokens h hopen tokens2 hpf hbd =>
    intro ha hli hll _
    rw [byteDrop_ascii origin ha index] at hbd
    rw [if_pos (by omega)] at hbd
    simp at hbd
  | case3 origin index lss tokens h hopen tokens2 hpf tail hbd hse =>
    intro ha hli hll hcontra
    rw [parseBGo.eq_def] at hcontra
    rw [dif_pos h] at hcontra
    rw [if_pos hopen] at hcontra
    have hpf2 : (if lss ≠ index then
        Option.map (fun t => tokens ++ [AST.Text t]) (byteSlice origin lss index)
      else some tokens) = some tokens2 := hpf
    simp only [hpf2, hbd, hse] at hcontra
    exact RRes.noConfusion hcontra
  | case4 origin index lss tokens h hopen tokens2 hpf tail hbd e hse hbs =>
    intro ha hli hll _
    rw [byteDrop_ascii origin ha index] at hbd
    rw [if_pos (by omega)] at hbd
    have htail : tail = origin.drop index := (Option.some.inj hbd).symm
    subst htail
    have hel : e < origin.length - index := by
      have := search_some_lt (origin.drop index)
        (kindOf (origin.get ⟨index, h⟩)) e hse
      simpa using this
    have he1 : 1 ≤ e := by
      apply search_head_open_pos (origin.drop index)
        (kindOf (origin.get ⟨index, h⟩)) e ?_ hse
      rw [List.head?_drop]
      rw [List.getElem?_eq_getElem h]
      rw [open_kindOf (origin.get ⟨index, h⟩) hopen]
      rw [List.get_eq_getElem]
    rw [byteSlice_ascii origin (index + 1) (index + e) ha] at hbs
    rw [if_pos ⟨by omega, by omega⟩] at hbs
    simp at hbs
  | case5 origin index lss tokens h hopen tokens2 hpf tail hbd e hse innerS
      hbs hinner ihinner =>
    intro ha hli hll hcontra
    have hainn : ∀ c ∈ innerS, c.utf8Size = 1 := by
      intro c hc
      rw [byteSlice_ascii origin (index + 1) (index + e) ha] at hbs
      split at hbs
      · have hin : innerS = (origin.drop (index + 1)).take (e - 1 + 1 - 1) := by
          have := Option.some.inj hbs
          rw [← this]
          congr 1
          omega
        apply ha
        rw [hin] at hc
        exact List.drop_subset _ _ (List.take_subset _ _ hc)
      · simp at hbs
    by_cases hz : utf8Len innerS = 0
    · rw [dif_pos hz] at hinner
      simp at hinner
    · rw [dif_neg hz] at hinner
      exact absurd hinner (ihinner hainn (le_refl 0) (by omega))
  | case6 origin index lss tokens h hopen tokens2 hpf tail hbd e hse innerS
      hbs err hinner ihinner =>
    intro ha hli hll hcontra
    rw [parseBGo.eq_def] at hcontra
    rw [dif_pos h] at hcontra
    rw [if_pos hopen] at hcontra
    have hpf2 : (if lss ≠ index then
        Option.map (fun t => tokens ++ [AST.Text t]) (byteSlice origin lss index)
      else some tokens) = some tokens2 := hpf
    have hinner2 : (if utf8Len innerS = 0 then RRes.ok (AST.Text [])
        else parseBGo innerS 0 0 []) = RRes.err err := hinner
    simp only [hpf2, hbd, hse] at hcontra
    split at hcontra
    · next heq => rw [hbs] at heq; exact Option.noConfusion heq
    · next innerS2 heq =>
      rw [hbs] at heq
      have hi2 := Option.some.inj heq
      subst hi2
      simp only [hinner2] at hcontra
      exact RRes.noConfusion hcontra
  | case7 origin index lss tokens h hopen tokens2 hpf tail hbd e hse innerS
      hbs innerA hinner ihinner ih =>
    intro ha hli hll hcontra
    rw [parseBGo.eq_def] at hcontra
    rw [dif_pos h] at hcontra
    rw [if_pos hopen] at hcontra
    have hpf2 : (if lss ≠ index then
        Option.map (fun t => tokens ++ [AST.Text t]) (byteSlice origin lss index)
      else some tokens) = some tokens2 := hpf
    have hinner2 : (if utf8Len innerS = 0 then RRes.ok (AST.Text [])
        else parseBGo innerS 0 0 []) = RRes.ok innerA := hinner
    simp only [hpf2, hbd, hse] at hcontra
    rw [show (match hbs2 : byteSlice origin (index + 1) (index + e) with
      | none => RRes.panicked
      | some innerS =>
        match if utf8Len innerS = 0 then RRes.ok (AST.Text [])
            else parseBGo innerS 0 0 [] with
        | RRes.panicked => RRes.panicked
        | RRes.err err => RRes.err err
        | RRes.ok innerA =>
          parseBGo origin (index + e + 1) (index + e + 1)
            (tokens2 ++ [wrapB (kindOf (origin.get ⟨index, h⟩)) innerA])) =
      parseBGo origin (index + e + 1) (index + e + 1)
        (tokens2 ++ [wrapB (kindOf (origin.get ⟨index, h⟩)) innerA]) from ?_]
      at hcontra
    swap
    · rw [show byteSlice origin (index + 1) (index + e) = some innerS from hbs]
      simp only [hinner2]
    rw [byteDrop_ascii origin ha index] at hbd
    rw [if_pos (by omega)] at hbd
    have htail : tail = origin.drop index := (Option.some.inj hbd).symm
    have hel : e < origin.length - index := by
      have := search_some_lt tail (kindOf (origin.get ⟨index, h⟩)) e hse
      rw [htail] at this
      simpa using this
    exact ih ha (le_refl _) (by omega) hcontra
  | case8 origin index lss tokens h hno ih =>
    intro ha hli hll hcontra
    rw [parseBGo.eq_def] at hcontra
    rw [dif_pos h] at hcontra
    rw [if_neg hno] at hcontra
    exact ih ha (by omega) hll hcontra
  | case9 origin index lss tokens hlt hcond hbd =>
    intro ha hli hll _
    rw [byteDrop_ascii origin ha lss] at hbd
    rw [if_pos hll] at hbd
    simp at hbd
  | case10 origin index lss tokens hlt hcond tail hbd =>
    intro ha hli hll hcontra
    rw [parseBGo.eq_def] at hcontra
    rw [dif_neg hlt] at hcontra
    rw [if_pos hcond] at hcontra
    simp only [hbd] at hcontra
    exact RRes.noConfusion hcontra
  | case11 origin index lss tokens hlt hcond =>
    intro ha hli hll hcontra
    rw [parseBGo.eq_def] at hcontra
    rw [dif_neg hlt] at hcontra
    rw [if_neg hcond] at hcontra
    simp at hcontra

/-- parseB never panics on all-single-byte input. -/
theorem parseB_no_panic (origin : List Char)
    (ha : ∀ c ∈ origin, c.utf8Size = 1) : parseB origin ≠ .panicked := by
  unfold parseB
  split
  · simp
  · exact parseBGo_no_panic origin 0 0 [] ha (le_refl 0) (by omega)

/-- C1: the claim states that the trailing text run is always flushed when
run_start points before the end of the input, and in particular that
parse of the string of a parenthesis containing 1, a nested parenthesis
containing 2, and 3 returns Parenthesis wrapping the sequence
Text 1, Parenthesis(Text 2), Text 3.  The code disagrees: its trailing
flush condition (last_string_start < origin.len() - 1, line 101 of lib.rs)
skips a trailing run of exactly one character, so the final Text 3 is
silently dropped and the result is Parenthesis wrapping only two tokens. -/
theorem parse_trailing_flush_drops_single_char :
    parse ("(1(2)3)".toList) =
      .ok (.Parenthesis (.Tokens [.Text ['1'], .Parenthesis (.Text ['2'])])) := by
  apply parseF_sound 40
  rfl

/-- C2: when the scan of parse reaches an opening bracket at offset i (no
earlier opening bracket exists) and the matcher finds no matching close of
its kind in the rest of the string, the whole parse fails immediately with
the single error kind HasNoClosing carrying i, the offset of that opening
bracket. -/
theorem parse_unclosed_first_open (s : List Char) (i : Nat) (c : Char)
    (hc : s[i]? = some c) (hopen : isOpenChar c = true)
    (hbefore : ∀ k, k < i → isOpenAt s k = false)
    (hnone : search_end_bracket (s.drop i) (kindOf c) = none) :
    parse s = .error (.HasNoClosing i) := by
  obtain ⟨hi, hgi⟩ := List.getElem?_eq_some.mp hc
  unfold parse
  rw [if_neg (by omega)]
  rw [parseGo_scan s 0 [] i 0 (by omega)
    (fun k hk0 hki => hbefore k (by omega))]
  rw [show 0 + i = i from by omega]
  have hget : s.get ⟨i, hi⟩ = c := by rw [List.get_eq_getElem]; exact hgi
  exact parseGo_open_none s i 0 [] hi (by rw [hget]; exact hopen)
    (by rw [hget]; exact hnone)

/-- Witness for C2 at the concrete input of the claim. -/
theorem parse_unclosed_first_open_witness :
    parse ("text(aaa]test".toList) = .error (.HasNoClosing 4) :=
  parse_unclosed_first_open ("text(aaa]test".toList) 4 '(' rfl rfl
    (by decide) rfl

/-- C3: on a string with no bracket characters at all, parse succeeds and
returns exactly Text of the whole input, including the empty and the
one-character input, never a one-element sequence. -/
theorem parse_no_brackets (s : List Char)
    (h : ∀ c ∈ s, isOpenChar c = false ∧ isCloseChar c = false) :
    parse s = .ok (.Text s) := by
  by_cases hz : s.length = 0
  · have hnil : s = [] := List.length_eq_zero.mp hz
    subst hnil
    rfl
  · have hop : ∀ k, isOpenAt s k = false := by
      intro k
      unfold isOpenAt
      cases hk : s[k]? with
      | none => rfl
      | some c =>
        obtain ⟨hklt, hkg⟩ := List.getElem?_eq_some.mp hk
        have hmem : c ∈ s := by rw [← hkg]; exact List.getElem_mem hklt
        exact (h c hmem).1
    unfold parse
    rw [if_neg hz]
    rw [parseGo_scan s 0 [] s.length 0 (by omega)
      (fun k hk0 hkl => hop k)]
    rw [show 0 + s.length = s.length from by omega]
    rw [parseGo_end s s.length 0 [] (by omega)]
    unfold flushEnd
    rw [if_pos (by omega)]
    rw [List.drop_zero]
    rfl

/-- Witness for C3 at the one-character input of the claim. -/
theorem parse_no_brackets_witness :
    parse ("t".toList) = .ok (.Text ("t".toList)) :=
  parse_no_brackets ("t".toList) (by decide)

/-- C4: parse is total (never panics) on inputs whose characters are all
single UTF-8 bytes, but because it uses character positions as byte slice
offsets, an input with a multi-byte character before a bracket makes it
panic on a slice at a non-character boundary instead of returning a
Result: parseB models the byte-level slicing of the Rust code. -/
theorem parse_singlebyte_total_multibyte_panics (s : List Char)
    (h : ∀ c ∈ s, c.utf8Size = 1) :
    parseB s ≠ .panicked ∧ parseB ("é(a)".toList) = .panicked := by
  refine ⟨parseB_no_panic s h, ?_⟩
  apply parseBF_sound 10
  rfl

/-- Witness for C4 at a concrete all-single-byte input. -/
theorem parse_singlebyte_total_multibyte_panics_witness :
    parseB ("ab".toList) ≠ .panicked ∧ parseB ("é(a)".toList) = .panicked :=
  parse_singlebyte_total_multibyte_panics ("ab".toList) (by decide)

/-- C5: given text starting at an opening bracket of the chosen kind, the
matcher returns exactly the first offset at which the closing symbol of
that kind returns the same-kind nesting counter to zero; concretely the
close offset is 7 for the first test string of the repository, 11 for the
doubly nested one, and 6 for the string of nested parentheses around 1, 2,
3, whose counter trace reaches 2, then 1, then 0. -/
theorem search_end_bracket_spec (k : Bracket) (l : List Char) (j : Nat)
    (hhead : l.head? = some (openChar k)) :
    (search_end_bracket l k = some j ↔
      hitAt k l 0 j ∧ ∀ m, m < j → ¬ hitAt k l 0 m) ∧
    search_end_bracket ("(123456)texttext".toList) .Paren = some 7 ∧
    search_end_bracket ("(123456(89))texttext".toList) .Paren = some 11 ∧
    search_end_bracket ("(1(2)3)".toList) .Paren = some 6 ∧
    (List.range 8).map
        (fun i => bCount .Paren (("(1(2)3)".toList).take i)) =
      [0, 1, 1, 2, 2, 1, 1, 0] :=
  ⟨search_some_iff l k j, rfl, rfl, rfl, rfl⟩

/-- Witness for C5 at the nested concrete input of the claim. -/
theorem search_end_bracket_spec_witness :
    ((search_end_bracket ("(1(2)3)".toList) .Paren = some 6 ↔
      hitAt .Paren ("(1(2)3)".toList) 0 6 ∧
        ∀ m, m < 6 → ¬ hitAt .Paren ("(1(2)3)".toList) 0 m) ∧
    search_end_bracket ("(123456)texttext".toList) .Paren = some 7 ∧
    search_end_bracket ("(123456(89))texttext".toList) .Paren = some 11 ∧
    search_end_bracket ("(1(2)3)".toList) .Paren = some 6 ∧
    (List.range 8).map
        (fun i => bCount .Paren (("(1(2)3)".toList).take i)) =
      [0, 1, 1, 2, 2, 1, 1, 0]) :=
  search_end_bracket_spec .Paren ("(1(2)3)".toList) 6 rfl

/-- C6: a character that is not the open or close symbol of the kind being
matched is completely inert for the matcher scan, so a stray other-kind
bracket is skipped: the parenthesised string containing a stray square
close parses successfully with the stray bracket kept as plain text, while
the unterminated variant fails only because no close parenthesis exists. -/
theorem bracket_other_kinds_inert (k : Bracket) (c : Char)
    (rest : List Char) (idx : Nat) (cnt : Int)
    (h1 : c ≠ openChar k) (h2 : c ≠ closeChar k) :
    sebGo (targets k) (c :: rest) idx cnt =
      sebGo (targets k) rest (idx + 1) cnt ∧
    parse ("(aaa]bbb)".toList) =
      .ok (.Parenthesis (.Text ("aaa]bbb".toList))) ∧
    parse ("(aaa]".toList) = .error (.HasNoClosing 0) := by
  refine ⟨sebGo_cons_inert k c rest idx cnt h1 h2, ?_, ?_⟩
  · exact parseF_sound 40 _ _ rfl
  · exact parseF_sound 40 _ _ rfl

/-- Witness for C6 with the stray square close inside a parenthesis scan. -/
theorem bracket_other_kinds_inert_witness :
    (sebGo (targets .Paren) (']' :: "bbb)".toList) 4 1 =
      sebGo (targets .Paren) ("bbb)".toList) 5 1) ∧
    parse ("(aaa]bbb)".toList) =
      .ok (.Parenthesis (.Text ("aaa]bbb".toList))) ∧
    parse ("(aaa]".toList) = .error (.HasNoClosing 0) :=
  bracket_other_kinds_inert .Paren ']' ("bbb)".toList) 4 1 (by decide)
    (by decide)

/-- C7: a failure inside the recursive parse of a bracket interior is
propagated upward completely unchanged, so the reported offset stays
relative to the interior substring in which the failure arose; concretely
the parse of a parenthesis containing a, an unclosed square bracket and b
fails with offset 1, the position of the square bracket inside the
interior, not its absolute position 2. -/
theorem parse_error_offset_relative (s : List Char) (i e : Nat) (c : Char)
    (err : ParseError)
    (hc : s[i]? = some c) (hopen : isOpenChar c = true)
    (hbefore : ∀ k, k < i → isOpenAt s k = false)
    (hse : search_end_bracket (s.drop i) (kindOf c) = some e)
    (hinner : parse (slice s (i + 1) (i + e)) = .error err) :
    parse s = .error err ∧
    parse ("(a[b)".toList) = .error (.HasNoClosing 1) := by
  constructor
  · obtain ⟨hi, hgi⟩ := List.getElem?_eq_some.mp hc
    unfold parse
    rw [if_neg (by omega)]
    rw [parseGo_scan s 0 [] i 0 (by omega)
      (fun k hk0 hki => hbefore k (by omega))]
    rw [show 0 + i = i from by omega]
    have hget : s.get ⟨i, hi⟩ = c := by rw [List.get_eq_getElem]; exact hgi
    rw [parseGo_open_some s i 0 [] hi (by rw [hget]; exact hopen) e
      (by rw [hget]; exact hse)]
    rw [hinner]
  · exact parseF_sound 40 _ _ rfl

/-- Witness for C7 at the concrete nested failure of the claim. -/
theorem parse_error_offset_relative_witness :
    parse ("(a[b)".toList) = .error (.HasNoClosing 1) ∧
    parse ("(a[b)".toList) = .error (.HasNoClosing 1) :=
  parse_error_offset_relative ("(a[b)".toList) 0 4 '(' (.HasNoClosing 1)
    rfl rfl (by omega) rfl (parseF_sound 40 _ _ rfl)

/-- C8: when the matcher exhausts its text without the same-kind counter
coming back to zero at a closing symbol, it returns the absence of a
result, not an error; concretely scanning the unterminated parenthesis
test string for a Square match yields none. -/
theorem search_exhausted_none (k : Bracket) (l : List Char)
    (h : ∀ j, j < l.length → ¬ hitAt k l 0 j) :
    search_end_bracket l k = none ∧
    search_end_bracket ("(123456texttext".toList) .Square = none :=
  ⟨search_none_of_no_hit l k h, rfl⟩

/-- Witness for C8 at the concrete input of the claim. -/
theorem search_exhausted_none_witness :
    search_end_bracket ("(123456texttext".toList) .Square = none ∧
    search_end_bracket ("(123456texttext".toList) .Square = none :=
  search_exhausted_none .Square ("(123456texttext".toList) (by decide)

/-- C9: in every tree returned by a successful parse, each Tokens node has
at least two elements: a single accumulated node is returned collapsed and
an empty Tokens result is unreachable. -/
theorem parse_no_singleton_tokens (s : List Char) (r : AST)
    (h : parse s = .ok r) : goodAST r = true :=
  (parse_invariant s r h).1

/-- Witness for C9 on a two-token parse. -/
theorem parse_no_singleton_tokens_witness :
    goodAST (.Tokens [.Text ("text".toList), .Parenthesis (.Text ['a'])]) =
      true :=
  parse_no_singleton_tokens ("text(a)".toList) _ (parseF_sound 40 _ _ rfl)

/-- C10: in every tree returned by a successful parse, the elements of a
Tokens node are only Text or bracket-kind nodes: a Tokens node never
directly contains another Tokens node. -/
theorem parse_tokens_never_nested (s : List Char) (r : AST)
    (h : parse s = .ok r) : flatAST r = true :=
  (parse_invariant s r h).2

/-- Witness for C10 on a parse with a bracket between text runs. -/
theorem parse_tokens_never_nested_witness :
    flatAST (.Tokens [.Text ("text".toList), .Parenthesis (.Text ['a'])]) =
      true :=
  parse_tokens_never_nested ("text(a)".toList) _ (parseF_sound 40 _ _ rfl)

end BP
